import Mathlib

/-!
Verification of the message-passing computation model of the DGL blitz
notebooks (graph store, message-passing engine, edge-apply engine,
batching layer, readout).  Feature rows are modelled as lists of
rationals; graphs as a node count plus an ordered edge list, edge ids
being list positions.  The engine operations (`update_all`,
`apply_edges`, `batch`, `unbatch`, `subgraph`, graph construction,
`local_scope`) live in the external library, so they are modelled from
the specification; user-defined functions (`u_mul_e_udf`, `mean_udf`,
the layers' `forward` bodies) are translated from the notebooks.
-/

namespace DglBlitz

/-- A feature row: one dense numeric vector.  Rationals model the tensor
runtime's exact arithmetic. -/
abbrev Row : Type := List ℚ

/-- Modelled from the spec: the Graph Store's topology — a directed
multigraph over node ids `0..numNodes-1`; edges are an ordered sequence of
(source, destination) pairs, each edge identified by its position. -/
structure Graph where
  numNodes : ℕ
  edges : List (ℕ × ℕ)
deriving DecidableEq, Repr

/-- Elementwise addition of two rows. -/
def addRow (a b : Row) : Row := List.zipWith (· + ·) a b

/-- Sum of a list of rows (elementwise). -/
def sumRows : List Row → Row
  | [] => []
  | [r] => r
  | r :: s :: rs => addRow r (sumRows (s :: rs))

/-- Modelled from the spec: the built-in `mean` reduce function — the
elementwise mean over the mailbox's first axis (sum of the rows divided by
the mailbox size). -/
def meanRows (rows : List Row) : Row :=
  (sumRows rows).map (fun x => x / (rows.length : ℚ))

/-- A message function: maps (source row, destination row, edge row) to a
message row, as in spec section 4.2. -/
abbrev MsgFn : Type := Row → Row → Row → Row

/-- The inbound edges of node `v`: all (edge id, (source, destination))
pairs of `g` whose destination is `v`, in ascending edge-id order. -/
def inEdges (g : Graph) (v : ℕ) : List (ℕ × (ℕ × ℕ)) :=
  g.edges.enum.filter (fun p => p.2.2 == v)

/-- Modelled from the spec: the mailbox of destination `v` — the messages
of all inbound edges of `v`, in ascending edge-id order. -/
def messagesTo (g : Graph) (msg : MsgFn) (nf ef : List Row) (v : ℕ) : List Row :=
  (inEdges g v).map (fun p => msg (nf.getD p.2.1 []) (nf.getD p.2.2 []) (ef.getD p.1 []))

/-- Modelled from the spec: the reduction step of `update_all` at one
destination node — `none` when the mailbox is empty (isolated nodes get no
output row), otherwise the reduce function applied to the mailbox. -/
def reduceAt (g : Graph) (msg : MsgFn) (red : List Row → Row) (nf ef : List Row) (v : ℕ) :
    Option Row :=
  let mb := messagesTo g msg nf ef v
  if mb.isEmpty then none else some (red mb)

/-- Modelled from the spec: `update_all(graph, message_fn, reduce_fn,
node_features, edge_features)` — computes one message per edge, groups by
destination, reduces each nonempty mailbox, and returns the new node
feature table as an association list keyed by node id; nodes with zero
inbound edges get no row. -/
def update_all (g : Graph) (msg : MsgFn) (red : List Row → Row) (nf ef : List Row) :
    List (ℕ × Row) :=
  (List.range g.numNodes).filterMap (fun v => (reduceAt g msg red nf ef v).map (fun r => (v, r)))

/-- Modelled from the spec: the built-in copy-source message function
(message = source row), i.e. `fn.copy_u`. -/
def copy_u : MsgFn := fun s _ _ => s

/-- Dot product of two rows: the sum of elementwise products. -/
def dotRow (a b : Row) : ℚ := (List.zipWith (· * ·) a b).sum

/-- Modelled from the spec: the built-in dot-product edge function
`fn.u_dot_v` — a one-element vector per edge holding the sum of
elementwise products of the source and destination rows. -/
def u_dot_v : MsgFn := fun s d _ => [dotRow s d]

/-- Modelled from the spec: `apply_edges(graph, edge_fn, node_features,
edge_features)` — computes `edge_fn` independently for every edge, in
edge-id order, yielding the new edge feature table. -/
def apply_edges (g : Graph) (edgeFn : MsgFn) (nf ef : List Row) : List Row :=
  g.edges.enum.map (fun p => edgeFn (nf.getD p.2.1 []) (nf.getD p.2.2 []) (ef.getD p.1 []))

/-- Looking up a key in a table built by `filterMap` over a duplicate-free
key list recovers the generating function. -/
lemma lookup_filterMap_nodup (f : ℕ → Option Row) (l : List ℕ) (hl : l.Nodup) (x : ℕ) :
    List.lookup x (l.filterMap (fun v => (f v).map (fun r => (v, r))))
      = if x ∈ l then f x else none := by
  induction l with
  | nil => simp
  | cons a as ih =>
    rw [List.nodup_cons] at hl
    obtain ⟨ha, has⟩ := hl
    rcases hfa : f a with _ | r
    · rw [List.filterMap_cons]
      simp only [hfa, Option.map_none']
      rw [ih has]
      by_cases hx : x = a
      · subst hx
        simp [ha, hfa]
      · simp [hx]
    · rw [List.filterMap_cons]
      simp only [hfa, Option.map_some']
      by_cases hx : x = a
      · subst hx
        simp [List.lookup, hfa]
      · have hne : (x == a) = false := by simpa using hx
        simp only [List.mem_cons, hx, false_or]
        simp [List.lookup, hne, ih has]

/-- `update_all`'s output table, read at node `v < numNodes`, is exactly
the reduction at `v`. -/
lemma update_all_lookup (g : Graph) (msg : MsgFn) (red : List Row → Row)
    (nf ef : List Row) (v : ℕ) (hv : v < g.numNodes) :
    List.lookup v (update_all g msg red nf ef) = reduceAt g msg red nf ef v := by
  unfold update_all
  rw [lookup_filterMap_nodup _ _ (List.nodup_range _) v]
  simp [hv]

/-- C1: `update_all` with the copy-source message function and the mean
reduce function gives each node `v` whose inbound edges come exactly from
`u1` and `u2` the output row `(r1 + r2) / 2` (elementwise mean of the two
source rows), and a node with zero inbound edges gets no output row. -/
theorem update_all_copy_u_mean_spec (g : Graph) (nf ef : List Row)
    (v u1 u2 i1 i2 : ℕ) (hv : v < g.numNodes) :
    (inEdges g v = [(i1, (u1, v)), (i2, (u2, v))] →
      List.lookup v (update_all g copy_u meanRows nf ef)
        = some ((addRow (nf.getD u1 []) (nf.getD u2 [])).map (fun x => x / 2)))
    ∧ (inEdges g v = [] →
      List.lookup v (update_all g copy_u meanRows nf ef) = none) := by
  constructor
  · intro hin
    rw [update_all_lookup g _ _ _ _ v hv]
    unfold reduceAt messagesTo
    rw [hin]
    simp [copy_u, meanRows, sumRows]
  · intro hin
    rw [update_all_lookup g _ _ _ _ v hv]
    unfold reduceAt messagesTo
    rw [hin]
    simp

/-- Witness for C1 on the two-in-edge graph `0 → 2 ← 1` with rows `[1]`
and `[3]`: node 2 receives `[2]` and node 0 receives no row. -/
theorem update_all_copy_u_mean_spec_witness :
    List.lookup 2 (update_all ⟨3, [(0, 2), (1, 2)]⟩ copy_u meanRows [[1], [3]] []) = some [2]
    ∧ List.lookup 0 (update_all ⟨3, [(0, 2), (1, 2)]⟩ copy_u meanRows [[1], [3]] []) = none := by
  constructor
  · have h := (update_all_copy_u_mean_spec ⟨3, [(0, 2), (1, 2)]⟩ [[1], [3]] [] 2 0 1 0 1
      (by decide)).1 (by decide)
    rw [h]
    norm_num [addRow]
  · exact (update_all_copy_u_mean_spec ⟨3, [(0, 2), (1, 2)]⟩ [[1], [3]] [] 0 0 1 0 1
      (by decide)).2 (by decide)

/-- C7: `apply_edges` with the built-in dot-product edge function on a
graph with the single edge `(0, 1)`, source row `[1,1,1,1]` and
destination row `[2,2,2,2]`, yields the edge score 8. -/
theorem apply_edges_u_dot_v_single_edge :
    apply_edges ⟨2, [(0, 1)]⟩ u_dot_v [[1, 1, 1, 1], [2, 2, 2, 2]] [] = [[8]] := by
  simp [apply_edges, u_dot_v, dotRow, List.enum, List.enumFrom]
  norm_num

/-- A named feature store: persistent feature tables keyed by feature
name, as read and written through `ndata`/`edata`. -/
abbrev Store : Type := List (String × List Row)

/-- Writing a named feature into a store (`g.ndata[name] = table`); the
newest binding shadows older ones. -/
def setFeature (s : Store) (name : String) (table : List Row) : Store :=
  (name, table) :: s

/-- One step of a computation run inside a feature-write scope: either a
feature write, or a raise from a user-supplied function. -/
inductive ScopeOp where
  | write (name : String) (table : List Row)
  | raise (cause : String)

/-- Runs the scope's steps over a store, stopping at the first raise. -/
def runOps : List ScopeOp → Store → Except String Store
  | [], s => .ok s
  | .write n t :: ops, s => runOps ops (setFeature s n t)
  | .raise c :: _, _ => .error c

/-- Modelled from the spec: `local_scope` — the scope's feature writes go
to a temporary overlay that is discarded on every exit path (normal return
or raise); only the value read out at the end escapes. -/
def localScope {α : Type} (s : Store) (ops : List ScopeOp) (readOut : Store → α) :
    Except String α × Store :=
  match runOps ops s with
  | .ok s2 => (.ok (readOut s2), s)
  | .error c => (.error c, s)

/-- C2: after a `local_scope` block the caller's persistent feature tables
are exactly what they were before, on every exit path — including when a
step raises — and only the read-out value escapes the scope. -/
theorem local_scope_no_leak {α : Type} (s : Store) (ops : List ScopeOp) (readOut : Store → α) :
    (localScope s ops readOut).2 = s
    ∧ (∀ s2, runOps ops s = .ok s2 → (localScope s ops readOut).1 = .ok (readOut s2))
    ∧ (∀ c, runOps ops s = .error c → (localScope s ops readOut).1 = .error c) := by
  refine ⟨?_, ?_, ?_⟩
  · unfold localScope
    rcases h : runOps ops s with c | s2 <;> simp
  · intro s2 h
    unfold localScope
    rw [h]
  · intro c h
    unfold localScope
    rw [h]

/-- Witness for C2: a scope that writes feature `h` and then raises leaves
the empty store unchanged and surfaces the raise. -/
theorem local_scope_no_leak_witness :
    (localScope ([] : Store) [ScopeOp.write "h" [[1]], ScopeOp.raise "boom"]
      (fun s => s.lookup "h")).2 = []
    ∧ (localScope ([] : Store) [ScopeOp.write "h" [[1]], ScopeOp.raise "boom"]
      (fun s => s.lookup "h")).1 = .error "boom" := by
  have h := local_scope_no_leak ([] : Store)
    [ScopeOp.write "h" [[1]], ScopeOp.raise "boom"] (fun s => s.lookup "h")
  exact ⟨h.1, h.2.2 "boom" rfl⟩

/-- Errors of the core, from the spec's error taxonomy. -/
inductive EngineError where
  | configurationError (msg : String)
  | computationError (cause : String)
deriving DecidableEq, Repr

/-- Largest node id referenced by an edge list. -/
def maxId (edges : List (ℕ × ℕ)) : ℕ :=
  (edges.map (fun p => max p.1 p.2)).foldr max 0

/-- Modelled from the spec: graph construction `build(edges, node_count?)`
(`dgl.graph`) — with an explicit count it fails with a configuration error
exactly when a referenced node id is not below the count; with the count
omitted it is inferred as `max(ids) + 1`, and an empty edge list with no
explicit count is a configuration error. -/
def build (edges : List (ℕ × ℕ)) (nodeCount : Option ℕ) : Except EngineError Graph :=
  match nodeCount with
  | some n =>
    if edges.all (fun p => p.1 < n && p.2 < n) then .ok ⟨n, edges⟩
    else .error (.configurationError "node id out of range")
  | none =>
    if edges.isEmpty then .error (.configurationError "cannot infer node count")
    else .ok ⟨maxId edges + 1, edges⟩

/-- C6: `build` with an explicit count fails with a configuration error
exactly when some referenced node id is `≥` the count; with the count
omitted it infers `max(ids) + 1`; an empty edge list with no explicit
count is a configuration error. -/
theorem build_spec (edges : List (ℕ × ℕ)) (n : ℕ) :
    ((∃ c, build edges (some n) = .error (.configurationError c))
      ↔ ∃ p ∈ edges, n ≤ p.1 ∨ n ≤ p.2)
    ∧ (edges ≠ [] → build edges none = .ok ⟨maxId edges + 1, edges⟩)
    ∧ build ([] : List (ℕ × ℕ)) none
        = .error (.configurationError "cannot infer node count") := by
  refine ⟨?_, ?_, rfl⟩
  · unfold build
    by_cases h : edges.all (fun p => p.1 < n && p.2 < n)
    · simp only [h, if_true]
      constructor
      · rintro ⟨c, hc⟩
        exact absurd hc (by simp)
      · rintro ⟨p, hp, hle⟩
        rw [List.all_eq_true] at h
        have := h p hp
        simp only [Bool.and_eq_true, decide_eq_true_eq] at this
        omega
    · simp only [h, if_false]
      constructor
      · intro _
        rw [List.all_eq_true] at h
        push_neg at h
        obtain ⟨p, hp, hb⟩ := h
        refine ⟨p, hp, ?_⟩
        rw [Ne, Bool.and_eq_true, decide_eq_true_eq, decide_eq_true_eq, not_and_or] at hb
        omega
      · intro _
        exact ⟨"node id out of range", rfl⟩
  · intro h
    unfold build
    simp [h]

/-- Witness for C6 on the star graph's edge list: construction with
`node_count = 3` fails (node id 5 out of range), and omitting the count
infers 6 nodes. -/
theorem build_spec_witness :
    (∃ c, build [(0, 1), (0, 5)] (some 3) = .error (.configurationError c))
    ∧ build [(0, 1), (0, 5)] none = .ok ⟨6, [(0, 1), (0, 5)]⟩ := by
  refine ⟨(build_spec [(0, 1), (0, 5)] 3).1.mpr ⟨(0, 5), by decide, by decide⟩, ?_⟩
  have h := (build_spec [(0, 1), (0, 5)] 6).2.1 (by decide)
  simpa [maxId] using h

/-- A user-supplied message function that may raise. -/
abbrev MsgFnE : Type := Row → Row → Row → Except String Row

/-- A user-supplied reduce function that may raise. -/
abbrev RedFnE : Type := List Row → Except String Row

/-- Maps a fallible function over a list, propagating the first raise. -/
def mapExcept {α : Type} (f : α → Except String Row) : List α → Except String (List Row)
  | [] => .ok []
  | x :: xs => do
    let r ← f x
    let rs ← mapExcept f xs
    pure (r :: rs)

/-- The reduction step of `update_all` at one destination node when the
user functions may raise: an empty mailbox yields no row, otherwise every
message is computed and the mailbox reduced, propagating the first raise. -/
def reduceAtE (g : Graph) (msg : MsgFnE) (red : RedFnE) (nf ef : List Row) (v : ℕ) :
    Except String (Option Row) :=
  if (inEdges g v).isEmpty then .ok none
  else do
    let msgs ← mapExcept
      (fun p => msg (nf.getD p.2.1 []) (nf.getD p.2.2 []) (ef.getD p.1 []))
      (inEdges g v)
    let r ← red msgs
    pure (some r)

/-- Collects the output rows for the given destination nodes, propagating
the first raise of a user function. -/
def collectRows (g : Graph) (msg : MsgFnE) (red : RedFnE) (nf ef : List Row) :
    List ℕ → Except String (List (ℕ × Row))
  | [] => .ok []
  | v :: vs => do
    let r ← reduceAtE g msg red nf ef v
    let rest ← collectRows g msg red nf ef vs
    match r with
    | none => pure rest
    | some row => pure ((v, row) :: rest)

/-- Modelled from the spec: `update_all` with fallible user functions — a
raising message/reduce function surfaces as a `computationError` wrapping
the original cause, and the call is all-or-nothing: either an error and no
output table, or a table with a row for every node with a nonempty
mailbox. -/
def update_allE (g : Graph) (msg : MsgFnE) (red : RedFnE) (nf ef : List Row) :
    Except EngineError (List (ℕ × Row)) :=
  match collectRows g msg red nf ef (List.range g.numNodes) with
  | .error c => .error (.computationError c)
  | .ok t => .ok t

/-- Every key of a table produced by `collectRows` comes from the node
list it was given. -/
lemma collectRows_keys (g : Graph) (msg : MsgFnE) (red : RedFnE) (nf ef : List Row)
    (l : List ℕ) (t : List (ℕ × Row)) (h : collectRows g msg red nf ef l = .ok t) :
    ∀ p ∈ t, p.1 ∈ l := by
  induction l generalizing t with
  | nil =>
    simp only [collectRows] at h
    cases h
    simp
  | cons a as ih =>
    simp only [collectRows, bind, Except.bind] at h
    rcases h1 : reduceAtE g msg red nf ef a with c | r <;> rw [h1] at h
    · exact absurd h (by simp)
    rcases h2 : collectRows g msg red nf ef as with c | rest <;> rw [h2] at h
    · exact absurd h (by simp)
    rcases r with _ | row
    · simp only [pure, Except.pure, Except.ok.injEq] at h
      subst h
      exact fun p hp => List.mem_cons_of_mem a (ih rest h2 p hp)
    · simp only [pure, Except.pure, Except.ok.injEq] at h
      subst h
      intro p hp
      rcases List.mem_cons.mp hp with hp | hp
      · subst hp
        exact List.mem_cons_self a as
      · exact List.mem_cons_of_mem a (ih rest h2 p hp)

/-- A lookup misses a table none of whose keys match. -/
lemma lookup_eq_none_of_keys (t : List (ℕ × Row)) (a : ℕ) (h : ∀ p ∈ t, p.1 ≠ a) :
    List.lookup a t = none := by
  induction t with
  | nil => rfl
  | cons q qs ih =>
    have hq : (a == q.1) = false := by
      simpa using fun he => h q (List.mem_cons_self q qs) he.symm
    rcases q with ⟨k, r⟩
    simp only [List.lookup, hq]
    exact ih fun p hp => h p (List.mem_cons_of_mem _ hp)

/-- In a successfully collected table, the row at each requested node is
exactly the node's reduction. -/
lemma collectRows_lookup (g : Graph) (msg : MsgFnE) (red : RedFnE) (nf ef : List Row)
    (l : List ℕ) (hl : l.Nodup) (t : List (ℕ × Row))
    (h : collectRows g msg red nf ef l = .ok t) :
    ∀ v ∈ l, ∃ o, reduceAtE g msg red nf ef v = .ok o ∧ List.lookup v t = o := by
  induction l generalizing t with
  | nil => simp
  | cons a as ih =>
    rw [List.nodup_cons] at hl
    obtain ⟨ha, has⟩ := hl
    simp only [collectRows, bind, Except.bind] at h
    rcases h1 : reduceAtE g msg red nf ef a with c | r <;> rw [h1] at h
    · exact absurd h (by simp)
    rcases h2 : collectRows g msg red nf ef as with c | rest <;> rw [h2] at h
    · exact absurd h (by simp)
    intro v hv
    rcases List.mem_cons.mp hv with hv | hv
    · subst hv
      refine ⟨r, h1, ?_⟩
      rcases r with _ | row
      · simp only [pure, Except.pure, Except.ok.injEq] at h
        subst h
        exact lookup_eq_none_of_keys rest v fun p hp hpv =>
          ha (hpv ▸ collectRows_keys g msg red nf ef as rest h2 p hp)
      · simp only [pure, Except.pure, Except.ok.injEq] at h
        subst h
        simp [List.lookup]
    · have hva : v ≠ a := fun he => ha (he ▸ hv)
      obtain ⟨o, ho, hlook⟩ := ih has rest h2 v hv
      refine ⟨o, ho, ?_⟩
      rcases r with _ | row
      · simp only [pure, Except.pure, Except.ok.injEq] at h
        subst h
        exact hlook
      · simp only [pure, Except.pure, Except.ok.injEq] at h
        subst h
        have : (v == a) = false := by simpa using hva
        simpa [List.lookup, this] using hlook

/-- A successful reduction at `v` yields a row exactly when `v` has a
nonempty mailbox. -/
lemma reduceAtE_ok_isSome (g : Graph) (msg : MsgFnE) (red : RedFnE) (nf ef : List Row)
    (v : ℕ) (o : Option Row) (h : reduceAtE g msg red nf ef v = .ok o) :
    o.isSome ↔ inEdges g v ≠ [] := by
  unfold reduceAtE at h
  by_cases he : (inEdges g v).isEmpty
  · rw [if_pos he] at h
    cases h
    simp [List.isEmpty_iff.mp he]
  · rw [if_neg he] at h
    simp only [bind, Except.bind] at h
    rcases h1 : mapExcept
        (fun p => msg (nf.getD p.2.1 []) (nf.getD p.2.2 []) (ef.getD p.1 []))
        (inEdges g v) with c | msgs <;> rw [h1] at h
    · exact absurd h (by simp)
    rcases h2 : red msgs with c | r <;> simp only [h2, pure, Except.pure] at h
    · exact absurd h (by simp)
    rw [Except.ok.injEq] at h
    subst h
    simp [List.isEmpty_iff] at he
    simp [he]

/-- If neither user function ever raises, `collectRows` succeeds. -/
lemma collectRows_total (g : Graph) (msg : MsgFnE) (red : RedFnE) (nf ef : List Row)
    (hm : ∀ s d e, ∃ r, msg s d e = .ok r) (hr : ∀ m, ∃ r, red m = .ok r)
    (l : List ℕ) : ∃ t, collectRows g msg red nf ef l = .ok t := by
  induction l with
  | nil => exact ⟨[], rfl⟩
  | cons a as ih =>
    obtain ⟨rest, hrest⟩ := ih
    have hred : ∃ o, reduceAtE g msg red nf ef a = .ok o := by
      unfold reduceAtE
      by_cases he : (inEdges g a).isEmpty
      · exact ⟨none, by rw [if_pos he]⟩
      · rw [if_neg he]
        have hmap : ∃ msgs, mapExcept
            (fun p => msg (nf.getD p.2.1 []) (nf.getD p.2.2 []) (ef.getD p.1 []))
            (inEdges g a) = .ok msgs := by
          clear he
          induction inEdges g a with
          | nil => exact ⟨[], rfl⟩
          | cons q qs ihq =>
            obtain ⟨ms, hms⟩ := ihq
            obtain ⟨r0, hr0⟩ := hm (nf.getD q.2.1 []) (nf.getD q.2.2 []) (ef.getD q.1 [])
            refine ⟨r0 :: ms, ?_⟩
            simp only [mapExcept, bind, Except.bind, pure, Except.pure]
            rw [hr0, hms]
        obtain ⟨msgs, hmsgs⟩ := hmap
        obtain ⟨r0, hr0⟩ := hr msgs
        refine ⟨some r0, ?_⟩
        simp only [bind, Except.bind, pure, Except.pure]
        rw [hmsgs]
        simp only [hr0]
    obtain ⟨o, ho⟩ := hred
    rcases o with _ | row
    · exact ⟨rest, by simp [collectRows, bind, Except.bind, ho, hrest, pure, Except.pure]⟩
    · exact ⟨(a, row) :: rest,
        by simp [collectRows, bind, Except.bind, ho, hrest, pure, Except.pure]⟩

/-- C5: a raising user function surfaces as a `computationError` wrapping
the cause and no output table is produced; otherwise the returned table
updates exactly the nodes with a nonempty mailbox (no partial
application); and when neither user function ever raises the call
succeeds, so failures originate only from the wrapped user functions. -/
theorem update_allE_all_or_nothing (g : Graph) (msg : MsgFnE) (red : RedFnE)
    (nf ef : List Row) :
    ((∃ c, update_allE g msg red nf ef = .error (.computationError c))
      ∨ (∃ t, update_allE g msg red nf ef = .ok t
          ∧ ∀ v, v < g.numNodes → ((List.lookup v t).isSome ↔ inEdges g v ≠ [])))
    ∧ ((∀ s d e, ∃ r, msg s d e = .ok r) → (∀ m, ∃ r, red m = .ok r) →
        ∃ t, update_allE g msg red nf ef = .ok t) := by
  constructor
  · unfold update_allE
    rcases h : collectRows g msg red nf ef (List.range g.numNodes) with c | t
    · exact Or.inl ⟨c, rfl⟩
    · refine Or.inr ⟨t, rfl, fun v hv => ?_⟩
      obtain ⟨o, ho, hlook⟩ := collectRows_lookup g msg red nf ef _
        (List.nodup_range _) t h v (List.mem_range.mpr hv)
      rw [hlook]
      exact reduceAtE_ok_isSome g msg red nf ef v o ho
  · intro hm hr
    obtain ⟨t, ht⟩ := collectRows_total g msg red nf ef hm hr (List.range g.numNodes)
    exact ⟨t, by simp [update_allE, ht]⟩

/-- Witness for C5 at a concrete graph and a reduce function that always
raises: the call surfaces the wrapped error or a complete table, and the
total-function case succeeds. -/
theorem update_allE_all_or_nothing_witness :
    ((∃ c, update_allE ⟨2, [(0, 1)]⟩ (fun s _ _ => .ok s) (fun _ => .error "boom") [[1]] []
        = .error (.computationError c))
      ∨ (∃ t, update_allE ⟨2, [(0, 1)]⟩ (fun s _ _ => .ok s) (fun _ => .error "boom") [[1]] []
          = .ok t
          ∧ ∀ v, v < 2 → ((List.lookup v t).isSome
              ↔ inEdges ⟨2, [(0, 1)]⟩ v ≠ [])))
    ∧ ∃ t, update_allE ⟨2, [(0, 1)]⟩ (fun s _ _ => .ok s) (fun m => .ok (meanRows m)) [[1]] []
        = .ok t := by
  constructor
  · exact (update_allE_all_or_nothing ⟨2, [(0, 1)]⟩ (fun s _ _ => .ok s)
      (fun _ => .error "boom") [[1]] []).1
  · exact (update_allE_all_or_nothing ⟨2, [(0, 1)]⟩ (fun s _ _ => .ok s)
      (fun m => .ok (meanRows m)) [[1]] []).2
      (fun s _ _ => ⟨s, rfl⟩) (fun m => ⟨meanRows m, rfl⟩)

/-- A graph together with its named node and edge feature tables, as used
across the notebooks (`ndata`/`edata`). -/
structure FGraph where
  numNodes : ℕ
  edges : List (ℕ × ℕ)
  ndata : List (String × List Row)
  edata : List (String × List Row)
deriving DecidableEq, Repr, Inhabited

/-- The feature names of a table, in declaration order. -/
def keysOf (t : List (String × List Row)) : List String := t.map Prod.fst

/-- Well-formedness of a graph with features: duplicate-free feature names
and row counts matching the node and edge counts (spec data-model
invariants). -/
def FGraph.wf (g : FGraph) : Prop :=
  (keysOf g.ndata).Nodup ∧ (keysOf g.edata).Nodup
    ∧ (∀ p ∈ g.ndata, p.2.length = g.numNodes)
    ∧ (∀ p ∈ g.edata, p.2.length = g.edges.length)

instance (g : FGraph) : Decidable g.wf := by
  unfold FGraph.wf
  infer_instance

/-- Total node count of a sequence of graphs. -/
def totalNodes : List FGraph → ℕ
  | [] => 0
  | g :: gs => g.numNodes + totalNodes gs

/-- Shifts every node id of an edge list by an offset. -/
def offsetEdges (off : ℕ) (es : List (ℕ × ℕ)) : List (ℕ × ℕ) :=
  es.map (fun p => (p.1 + off, p.2 + off))

/-- The batched edge list: each constituent's edges shifted by the
cumulative node count of the preceding graphs, concatenated in order. -/
def batchEdges : ℕ → List FGraph → List (ℕ × ℕ)
  | _, [] => []
  | off, g :: gs => offsetEdges off g.edges ++ batchEdges (off + g.numNodes) gs

/-- Row-wise concatenation of the constituents' tables for one feature
name. -/
def concatFeature (gs : List FGraph) (proj : FGraph → List (String × List Row)) (nm : String) :
    List Row :=
  (gs.map (fun g => ((proj g).lookup nm).getD [])).flatten

/-- A batched graph: the fused topology and tables plus the per-constituent
node and edge counts recording the graph boundaries. -/
structure BGraph where
  numNodes : ℕ
  edges : List (ℕ × ℕ)
  ndata : List (String × List Row)
  edata : List (String × List Row)
  batchNumNodes : List ℕ
  batchNumEdges : List ℕ
deriving DecidableEq, Repr

/-- Modelled from the spec: `batch(graphs)` — node and edge id ranges are
concatenated in order (ids of graph `i` offset by the cumulative node
count of graphs `0..i-1`), feature tables are row-concatenated per name,
and `batch_num_nodes` / `batch_num_edges` record one entry per input
graph, in input order. -/
def batch (gs : List FGraph) : BGraph :=
  { numNodes := totalNodes gs
  , edges := batchEdges 0 gs
  , ndata := (keysOf (gs.headD default).ndata).map
      (fun nm => (nm, concatFeature gs FGraph.ndata nm))
  , edata := (keysOf (gs.headD default).edata).map
      (fun nm => (nm, concatFeature gs FGraph.edata nm))
  , batchNumNodes := gs.map FGraph.numNodes
  , batchNumEdges := gs.map (fun g => g.edges.length) }

/-- Shifts every node id of an edge list down by an offset. -/
def unOffsetEdges (off : ℕ) (es : List (ℕ × ℕ)) : List (ℕ × ℕ) :=
  es.map (fun p => (p.1 - off, p.2 - off))

/-- Splits a batched graph back into constituents: peels off
`batch_num_nodes`/`batch_num_edges`-sized segments of the edge list and of
every feature table, undoing the node-id offsets. -/
def unbatchAux : ℕ → List ℕ → List ℕ → List (ℕ × ℕ) → List (String × List Row) →
    List (String × List Row) → List FGraph
  | _, [], _, _, _, _ => []
  | off, n :: ns, ms, es, nd, ed =>
    let m := ms.headD 0
    { numNodes := n
    , edges := unOffsetEdges off (es.take m)
    , ndata := nd.map (fun p => (p.1, p.2.take n))
    , edata := ed.map (fun p => (p.1, p.2.take m)) }
    :: unbatchAux (off + n) ns ms.tail (es.drop m)
        (nd.map (fun p => (p.1, p.2.drop n))) (ed.map (fun p => (p.1, p.2.drop m)))

/-- Modelled from the spec: `unbatch(batched)` — recovers the ordered
sequence of constituent graphs from the recorded per-graph boundaries. -/
def unbatch (b : BGraph) : List FGraph :=
  unbatchAux 0 b.batchNumNodes b.batchNumEdges b.edges b.ndata b.edata

/-- Reading every key of a duplicate-free table back out of the table
reproduces it. -/
lemma map_keys_lookup (t : List (String × List Row)) (h : (keysOf t).Nodup) :
    (keysOf t).map (fun nm => (nm, (t.lookup nm).getD [])) = t := by
  induction t with
  | nil => rfl
  | cons q qs ih =>
    rcases q with ⟨k, v⟩
    rw [keysOf, List.map_cons, List.nodup_cons] at h
    obtain ⟨hk, hqs⟩ := h
    have hmap : (List.map Prod.fst qs).map
          (fun nm => (nm, (List.lookup nm ((k, v) :: qs)).getD []))
        = (List.map Prod.fst qs).map (fun nm => (nm, (List.lookup nm qs).getD [])) := by
      apply List.map_congr_left
      intro nm hnm
      have hne : (nm == k) = false := by
        rw [beq_eq_false_iff_ne]
        intro he
        exact hk (he ▸ hnm)
      simp [List.lookup, hne]
    rw [keysOf, List.map_cons, List.map_cons, hmap]
    have ih2 := ih hqs
    rw [keysOf] at ih2
    rw [ih2]
    simp [List.lookup]

/-- With duplicate-free keys, every entry of a table is found by looking
up its own name. -/
lemma lookup_of_mem_keys_nodup (t : List (String × List Row)) (hnd : (keysOf t).Nodup)
    (p : String × List Row) (hp : p ∈ t) : List.lookup p.1 t = some p.2 := by
  induction t with
  | nil => cases hp
  | cons q qs ih =>
    rw [keysOf, List.map_cons, List.nodup_cons] at hnd
    obtain ⟨hq, hqs⟩ := hnd
    rcases List.mem_cons.mp hp with hp | hp
    · subst hp
      simp [List.lookup]
    · have hne : (p.1 == q.1) = false := by
        rw [beq_eq_false_iff_ne]
        intro he
        exact hq (he ▸ List.mem_map_of_mem Prod.fst hp)
      rw [List.lookup, hne]
      exact ih hqs hp

/-- Reading a duplicate-free table out through its keys and trimming each
row list back to its own length restores the table. -/
lemma restore_table (t : List (String × List Row)) (n : ℕ)
    (hnd : (keysOf t).Nodup) (hlen : ∀ p ∈ t, p.2.length = n) :
    ((keysOf t).map (fun nm => (nm, (List.lookup nm t).getD []))).map
      (fun p => (p.1, p.2.take n)) = t := by
  rw [List.map_map]
  have hcongr : ∀ nm ∈ keysOf t,
      ((fun p => (p.1, p.2.take n)) ∘ fun nm => (nm, (List.lookup nm t).getD [])) nm
        = (nm, (List.lookup nm t).getD []) := by
    intro nm hnm
    obtain ⟨p, hp, hpe⟩ := List.mem_map.mp hnm
    subst hpe
    rw [Function.comp_apply, lookup_of_mem_keys_nodup t hnd p hp]
    simp only [Option.getD_some]
    rw [← hlen p hp, List.take_length]
  rw [List.map_congr_left hcongr, map_keys_lookup t hnd]

/-- C3: unbatching the batch of one well-formed graph reproduces that
graph exactly — node count, edge count, every (source, destination) pair
in edge-id order, and every node and edge feature row. -/
theorem unbatch_batch_single (g : FGraph) (h : g.wf) :
    unbatch (batch [g]) = [g] := by
  obtain ⟨n, es, nd, ed⟩ := g
  obtain ⟨hnd, hed, hlnd, hled⟩ := h
  simp only [keysOf] at hnd hed
  simp only at hlnd hled
  unfold unbatch batch
  simp only [concatFeature, List.map_cons, List.map_nil, List.flatten_cons, List.flatten_nil,
    List.append_nil, totalNodes, batchEdges, List.headD]
  unfold unbatchAux
  simp only [List.headD_cons, List.tail_cons]
  rw [unbatchAux]
  congr 1
  rw [FGraph.mk.injEq]
  refine ⟨rfl, ?_, ?_, ?_⟩
  · have hne : List.take es.length (offsetEdges 0 es) = offsetEdges 0 es := by
      unfold offsetEdges
      rw [← List.map_take, List.take_length]
    rw [hne]
    unfold unOffsetEdges offsetEdges
    rw [List.map_map]
    simp [Function.comp_def]
  · exact restore_table nd n hnd hlnd
  · exact restore_table ed es.length hed hled

/-- Witness for C3: a concrete two-node graph with one edge and one node
and one edge feature survives the batch/unbatch round trip. -/
theorem unbatch_batch_single_witness :
    unbatch (batch [⟨2, [(0, 1)], [("x", [[1], [2]])], [("a", [[5]])]⟩])
      = [⟨2, [(0, 1)], [("x", [[1], [2]])], [("a", [[5]])]⟩] :=
  unbatch_batch_single ⟨2, [(0, 1)], [("x", [[1], [2]])], [("a", [[5]])]⟩ (by decide)

/-- Total node count equals the sum of the per-graph node counts. -/
lemma totalNodes_eq_sum (gs : List FGraph) :
    totalNodes gs = (gs.map FGraph.numNodes).sum := by
  induction gs with
  | nil => rfl
  | cons g gs ih => simp [totalNodes, ih]

/-- The batched edge list's length is the sum of the per-graph edge
counts, whatever the starting offset. -/
lemma batchEdges_length (off : ℕ) (gs : List FGraph) :
    (batchEdges off gs).length = (gs.map (fun g => g.edges.length)).sum := by
  induction gs generalizing off with
  | nil => rfl
  | cons g gs ih => simp [batchEdges, offsetEdges, ih]

/-- The batching precondition from the spec: every graph declares the same
node-feature names and the same edge-feature names. -/
def schemaOk (gs : List FGraph) : Prop :=
  ∀ g ∈ gs, keysOf g.ndata = keysOf (gs.headD default).ndata
    ∧ keysOf g.edata = keysOf (gs.headD default).edata

instance (gs : List FGraph) : Decidable (schemaOk gs) := by
  unfold schemaOk
  infer_instance

/-- C4: for a schema-compatible sequence of graphs, `batch_num_nodes` has
one entry per input graph in input order and sums to the batched graph's
total node count; `batch_num_edges` likewise sums to its total edge
count. -/
theorem batch_counts_spec (gs : List FGraph) (hs : schemaOk gs) :
    (batch gs).batchNumNodes = gs.map FGraph.numNodes
    ∧ (batch gs).batchNumNodes.sum = (batch gs).numNodes
    ∧ (batch gs).batchNumEdges = gs.map (fun g => g.edges.length)
    ∧ (batch gs).batchNumEdges.sum = (batch gs).edges.length := by
  refine ⟨rfl, ?_, rfl, ?_⟩
  · show (gs.map FGraph.numNodes).sum = totalNodes gs
    exact (totalNodes_eq_sum gs).symm
  · show (gs.map (fun g => g.edges.length)).sum = (batchEdges 0 gs).length
    exact (batchEdges_length 0 gs).symm

/-- Witness for C4 on a concrete two-graph batch: counts [1, 2] and [0, 1]
sum to 3 nodes and 1 edge. -/
theorem batch_counts_spec_witness :
    (batch [⟨1, [], [("x", [[1]])], []⟩, ⟨2, [(0, 1)], [("x", [[2], [3]])], []⟩]).batchNumNodes
        = [1, 2]
    ∧ (batch [⟨1, [], [("x", [[1]])], []⟩,
        ⟨2, [(0, 1)], [("x", [[2], [3]])], []⟩]).batchNumNodes.sum
        = (batch [⟨1, [], [("x", [[1]])], []⟩,
            ⟨2, [(0, 1)], [("x", [[2], [3]])], []⟩]).numNodes
    ∧ (batch [⟨1, [], [("x", [[1]])], []⟩,
        ⟨2, [(0, 1)], [("x", [[2], [3]])], []⟩]).batchNumEdges = [0, 1]
    ∧ (batch [⟨1, [], [("x", [[1]])], []⟩,
        ⟨2, [(0, 1)], [("x", [[2], [3]])], []⟩]).batchNumEdges.sum
        = (batch [⟨1, [], [("x", [[1]])], []⟩,
            ⟨2, [(0, 1)], [("x", [[2], [3]])], []⟩]).edges.length := by
  have h := batch_counts_spec
    [⟨1, [], [("x", [[1]])], []⟩, ⟨2, [(0, 1)], [("x", [[2], [3]])], []⟩] (by decide)
  exact ⟨h.1, h.2.1, h.2.2.1, h.2.2.2⟩

/-- Splits a list into consecutive segments of the given sizes. -/
def splitSizes {α : Type} : List ℕ → List α → List (List α)
  | [], _ => []
  | n :: ns, xs => xs.take n :: splitSizes ns (xs.drop n)

/-- Modelled from the spec: readout with mean reduction (`dgl.mean_nodes`)
— the named node table is split at the `batch_num_nodes` boundaries and
each constituent's rows are reduced to their elementwise mean, one output
row per constituent graph, in batching order. -/
def mean_nodes (b : BGraph) (nm : String) : List Row :=
  (splitSizes b.batchNumNodes ((List.lookup nm b.ndata).getD [])).map meanRows

/-- A plain (non-batched) graph viewed as a batched graph of one
constituent, the spec's graph_count = 1 case. -/
def asBatched (g : FGraph) : BGraph :=
  { numNodes := g.numNodes, edges := g.edges, ndata := g.ndata, edata := g.edata
  , batchNumNodes := [g.numNodes], batchNumEdges := [g.edges.length] }

/-- Adding a row to `c` copies of itself sums to `c + 1` copies. -/
lemma addRow_smul (r : Row) (c : ℚ) :
    addRow r (r.map (fun x => c * x)) = r.map (fun x => (c + 1) * x) := by
  unfold addRow
  rw [List.zipWith_map_right, List.zipWith_same]
  apply List.map_congr_left
  intro x _
  ring

/-- The sum of `n + 1` copies of a row scales the row by `n + 1`. -/
lemma sumRows_replicate (n : ℕ) (r : Row) :
    sumRows (List.replicate (n + 1) r) = r.map (fun x => ((n : ℚ) + 1) * x) := by
  induction n with
  | zero =>
    simp only [List.replicate, sumRows]
    rw [List.map_congr_left (fun x _ => by rw [Nat.cast_zero, zero_add, one_mul])]
    exact (List.map_id r).symm
  | succ k ih =>
    rw [List.replicate_succ, List.replicate_succ]
    rw [List.replicate_succ] at ih
    show sumRows (r :: r :: List.replicate k r) = _
    rw [sumRows, ih, addRow_smul]
    apply List.map_congr_left
    intro x _
    push_cast
    ring

/-- The elementwise mean of `n` identical rows is that row (for `n ≠ 0`). -/
lemma meanRows_replicate (n : ℕ) (hn : n ≠ 0) (r : Row) :
    meanRows (List.replicate n r) = r := by
  obtain ⟨k, rfl⟩ := Nat.exists_eq_succ_of_ne_zero hn
  unfold meanRows
  rw [sumRows_replicate, List.map_map, List.length_replicate]
  have : ∀ x ∈ r, ((fun x => x / ((k + 1 : ℕ) : ℚ)) ∘ fun x => ((k : ℚ) + 1) * x) x = x := by
    intro x _
    have hk : ((k : ℚ) + 1) ≠ 0 := by positivity
    field_simp
  rw [List.map_congr_left this]
  exact List.map_id r

/-- C8: readout with mean reduction over a batched graph of two
constituents whose per-node feature rows are uniformly `r1` and `r2`
yields exactly `[r1, r2]` in batching order, whatever the two node counts;
for a plain (non-batched) graph the result has exactly one row. -/
theorem mean_nodes_batched_uniform (nm : String) (n1 n2 : ℕ) (h1 : n1 ≠ 0) (h2 : n2 ≠ 0)
    (r1 r2 : Row) (e1 e2 : List (ℕ × ℕ)) (ed1 ed2 : List (String × List Row)) :
    mean_nodes (batch [⟨n1, e1, [(nm, List.replicate n1 r1)], ed1⟩,
        ⟨n2, e2, [(nm, List.replicate n2 r2)], ed2⟩]) nm = [r1, r2]
    ∧ (mean_nodes (asBatched ⟨n1, e1, [(nm, List.replicate n1 r1)], ed1⟩) nm).length = 1 := by
  constructor
  · unfold mean_nodes batch
    simp only [concatFeature, keysOf, List.map_cons, List.map_nil, List.headD_cons,
      List.flatten_cons, List.flatten_nil, List.append_nil]
    rw [List.lookup]
    simp only [beq_self_eq_true, Option.getD_some]
    have hlook : (List.lookup nm [(nm, List.replicate n1 r1)]).getD [] = List.replicate n1 r1 := by
      rw [List.lookup]
      simp
    have hlook2 : (List.lookup nm [(nm, List.replicate n2 r2)]).getD [] = List.replicate n2 r2 := by
      rw [List.lookup]
      simp
    rw [hlook, hlook2]
    unfold splitSizes splitSizes splitSizes
    have htake : (List.replicate n1 r1 ++ List.replicate n2 r2).take n1 = List.replicate n1 r1 :=
      List.take_left' (List.length_replicate n1 r1)
    have hdrop : (List.replicate n1 r1 ++ List.replicate n2 r2).drop n1 = List.replicate n2 r2 :=
      List.drop_left' (List.length_replicate n1 r1)
    rw [htake, hdrop]
    have htake2 : (List.replicate n2 r2).take n2 = List.replicate n2 r2 := by
      simp [List.take_replicate]
    rw [htake2]
    simp only [List.map_cons, List.map_nil]
    rw [meanRows_replicate n1 h1 r1, meanRows_replicate n2 h2 r2]
  · unfold mean_nodes asBatched splitSizes splitSizes
    simp

/-- Witness for C8: constituents of 2 and 3 nodes with uniform rows `[5]`
and `[7]` read out as `[[5], [7]]`, and the plain graph reads out one
row. -/
theorem mean_nodes_batched_uniform_witness :
    mean_nodes (batch [⟨2, [], [("h", List.replicate 2 [5])], []⟩,
        ⟨3, [], [("h", List.replicate 3 [7])], []⟩]) "h" = [[5], [7]]
    ∧ (mean_nodes (asBatched ⟨2, [], [("h", List.replicate 2 [5])], []⟩) "h").length = 1 := by
  have h := mean_nodes_batched_uniform "h" 2 3 (by decide) (by decide) [5] [7] [] [] [] []
  exact ⟨h.1, h.2⟩

/-- The reserved feature name carrying the node provenance mapping
(`dgl.NID`). -/
def NID : String := "_ID"

/-- The reserved feature name carrying the edge provenance mapping
(`dgl.EID`). -/
def EID : String := "_ID"

/-- An original id stored as a one-element feature row. -/
def idRow (i : ℕ) : Row := [(i : ℚ)]

/-- The edges retained by `subgraph`: an (edge id, (source, destination))
entry is kept exactly when both endpoints are in the selection. -/
def keptEdges (g : FGraph) (s : List ℕ) : List (ℕ × (ℕ × ℕ)) :=
  g.edges.enum.filter (fun p => decide (p.2.1 ∈ s) && decide (p.2.2 ∈ s))

/-- Modelled from the spec: `subgraph(node_ids)` — new node `j` is
`node_ids[j]`; an edge is retained exactly when both endpoints are in the
selection, its endpoints reindexed to positions in `node_ids`; the
selected feature rows are copied into fresh tables; the new-id →
original-id provenance mappings are attached as the reserved `_ID`
features. -/
def subgraph (g : FGraph) (s : List ℕ) : FGraph :=
  { numNodes := s.length
  , edges := (keptEdges g s).map (fun q => (s.indexOf q.2.1, s.indexOf q.2.2))
  , ndata := g.ndata.map (fun p => (p.1, s.map (fun u => p.2.getD u []))) ++ [(NID, s.map idRow)]
  , edata := g.edata.map (fun p => (p.1, (keptEdges g s).map (fun q => p.2.getD q.1 [])))
      ++ [(EID, (keptEdges g s).map (fun q => idRow q.1))] }

/-- Modelled from the spec: `edge_subgraph(edge_ids)` — keeps the selected
edges in selection order together with the induced incident nodes, copies
the corresponding feature rows into fresh tables, and attaches both
provenance mappings as the reserved `_ID` features. -/
def edge_subgraph (g : FGraph) (es : List ℕ) : FGraph :=
  let kept := es.map (fun i => (i, g.edges.getD i (0, 0)))
  let nodes := (kept.flatMap (fun q => [q.2.1, q.2.2])).dedup
  { numNodes := nodes.length
  , edges := kept.map (fun q => (nodes.indexOf q.2.1, nodes.indexOf q.2.2))
  , ndata := g.ndata.map (fun p => (p.1, nodes.map (fun u => p.2.getD u [])))
      ++ [(NID, nodes.map idRow)]
  , edata := g.edata.map (fun p => (p.1, es.map (fun i => p.2.getD i [])))
      ++ [(EID, es.map idRow)] }

/-- C9: `subgraph` keeps one node per selected id and exactly the edges
whose two endpoints are both selected, copies each original feature's rows
at the selected ids into its own tables, and carries the `_ID` provenance
features; `edge_subgraph` keeps exactly the selected edges, copies their
feature rows, and carries the `_ID` provenance features. -/
theorem subgraph_spec (g : FGraph) (s : List ℕ) (es : List ℕ) :
    (subgraph g s).numNodes = s.length
    ∧ (∀ i u v, (i, (u, v)) ∈ keptEdges g s
        ↔ g.edges[i]? = some (u, v) ∧ u ∈ s ∧ v ∈ s)
    ∧ (subgraph g s).edges.length = (keptEdges g s).length
    ∧ (∀ p ∈ g.ndata, (p.1, s.map (fun u => p.2.getD u [])) ∈ (subgraph g s).ndata)
    ∧ (NID, s.map idRow) ∈ (subgraph g s).ndata
    ∧ (EID, (keptEdges g s).map (fun q => idRow q.1)) ∈ (subgraph g s).edata
    ∧ (edge_subgraph g es).edges.length = es.length
    ∧ (∀ p ∈ g.edata, (p.1, es.map (fun i => p.2.getD i [])) ∈ (edge_subgraph g es).edata)
    ∧ (NID, ((es.map (fun i => (i, g.edges.getD i (0, 0)))).flatMap
        (fun q => [q.2.1, q.2.2])).dedup.map idRow) ∈ (edge_subgraph g es).ndata
    ∧ (EID, es.map idRow) ∈ (edge_subgraph g es).edata := by
  refine ⟨rfl, ?_, by simp [subgraph], ?_, ?_, ?_, by simp [edge_subgraph], ?_, ?_, ?_⟩
  · intro i u v
    rw [keptEdges, List.mem_filter, List.mk_mem_enum_iff_getElem?]
    simp [and_assoc]
  · intro p hp
    exact List.mem_append_left _ (List.mem_map_of_mem _ hp)
  · exact List.mem_append_right _ (List.mem_singleton.mpr rfl)
  · exact List.mem_append_right _ (List.mem_singleton.mpr rfl)
  · intro p hp
    exact List.mem_append_left _ (List.mem_map_of_mem _ hp)
  · exact List.mem_append_right _ (List.mem_singleton.mpr rfl)
  · exact List.mem_append_right _ (List.mem_singleton.mpr rfl)

/-- Witness for C9 on the 6-node star graph of the introduction notebook
with node selection [0, 1, 3]: the subgraph has 3 nodes. -/
theorem subgraph_spec_witness :
    (subgraph ⟨6, [(0, 1), (0, 2), (0, 3), (0, 4), (0, 5)], [], []⟩ [0, 1, 3]).numNodes = 3 :=
  (subgraph_spec ⟨6, [(0, 1), (0, 2), (0, 3), (0, 4), (0, 5)], [], []⟩ [0, 1, 3] [0, 1, 3]).1

/-- The tensor runtime's broadcasting product of two rows: a one-element
second operand scales every entry of the first, otherwise the product is
taken entrywise. -/
def bmul (a b : Row) : Row :=
  if b.length = 1 then a.map (fun x => x * b.getD 0 0) else List.zipWith (· * ·) a b

/-- Modelled from the spec: the built-in message function `fn.u_mul_e` —
the product of the source row and the edge row (the runtime broadcasts a
one-element edge row over the source row, as WeightedSAGEConv's
one-column edge weights exercise). -/
def u_mul_e : MsgFn := fun s _ e => bmul s e

/-- Translated from the notebook's user-defined message function
`u_mul_e_udf(edges) = edges.src['h'] * edges.data['w']` (the runtime's
broadcasting product of the source row and the edge row). -/
def u_mul_e_udf : MsgFn := fun s _ e => bmul s e

/-- Translated from the notebook's user-defined reduce function
`mean_udf(nodes) = nodes.mailbox['m'].mean(1)`: the stacked mailbox is
averaged over its second (mailbox) dimension, one column at a time. -/
def mean_udf (mb : List Row) : Row :=
  (List.range (mb.headD []).length).map
    (fun j => (mb.map (fun r => r.getD j 0)).sum / (mb.length : ℚ))

/-- A row is recovered entrywise through `getD`. -/
lemma map_getD_range (r : Row) :
    (List.range r.length).map (fun j => r.getD j 0) = r := by
  apply List.ext_getElem
  · simp
  · intro i h1 h2
    simp only [List.getElem_map, List.getElem_range]
    exact List.getD_eq_getElem r 0 h2

/-- Summing rows of uniform width `F` equals summing each of the `F`
columns. -/
lemma sumRows_eq_colSums (F : ℕ) (mb : List Row) (hne : mb ≠ [])
    (hlen : ∀ r ∈ mb, r.length = F) :
    sumRows mb = (List.range F).map (fun j => (mb.map (fun r => r.getD j 0)).sum) := by
  induction mb with
  | nil => exact absurd rfl hne
  | cons r rs ih =>
    have hr : r.length = F := hlen r (List.mem_cons_self _ _)
    rcases rs with _ | ⟨r2, rs2⟩
    · simp only [sumRows, List.map_cons, List.map_nil, List.sum_cons, List.sum_nil, add_zero]
      rw [← hr]
      exact (map_getD_range r).symm
    · have hne2 : r2 :: rs2 ≠ [] := by simp
      have hlen2 : ∀ x ∈ r2 :: rs2, x.length = F :=
        fun x hx => hlen x (List.mem_cons_of_mem _ hx)
      rw [sumRows, ih hne2 hlen2]
      unfold addRow
      apply List.ext_getElem
      · simp [hr]
      · intro i h1 h2
        rw [List.getElem_zipWith]
        simp only [List.getElem_map, List.getElem_range, List.map_cons, List.sum_cons]
        congr 1
        have hi : i < r.length := by
          simp [hr] at h2 ⊢
          omega
        exact (List.getD_eq_getElem r 0 hi).symm

/-- On a nonempty mailbox of uniform width, the notebook's column-wise
`mean_udf` computes exactly the built-in elementwise mean. -/
lemma mean_udf_eq_meanRows (mb : List Row) (hne : mb ≠ []) (F : ℕ)
    (hlen : ∀ r ∈ mb, r.length = F) : mean_udf mb = meanRows mb := by
  unfold mean_udf meanRows
  have hhead : (mb.headD []).length = F := by
    rcases mb with _ | ⟨r, rs⟩
    · exact absurd rfl hne
    · exact hlen r (List.mem_cons_self _ _)
  rw [hhead, sumRows_eq_colSums F mb hne hlen, List.map_map]
  rfl

/-- The broadcasting product keeps the width of a compatible first
operand. -/
lemma bmul_length (a b : Row) (F : ℕ) (ha : a.length = F)
    (hb : b.length = 1 ∨ b.length = a.length) : (bmul a b).length = F := by
  unfold bmul
  by_cases h1 : b.length = 1
  · rw [if_pos h1]
    simp [ha]
  · rw [if_neg h1]
    rcases hb with hb | hb
    · exact absurd hb h1
    · simp [List.length_zipWith, ha, hb]

/-- C10: on a well-formed feature assignment (tables covering all nodes
and edges, uniform node row width `F`, uniform edge row width `W` with `W`
broadcastable to `F`, edge sources in range), `update_all` with the
notebook's user-defined `u_mul_e_udf` and `mean_udf` produces exactly the
same output node feature table as `update_all` with the built-in
`u_mul_e` and `mean`. -/
theorem udf_matches_builtin (g : Graph) (nf ef : List Row) (F W : ℕ)
    (hnf : nf.length = g.numNodes) (hef : ef.length = g.edges.length)
    (hF : ∀ r ∈ nf, r.length = F) (hW : ∀ r ∈ ef, r.length = W)
    (hBW : W = 1 ∨ W = F) (hsrc : ∀ p ∈ g.edges, p.1 < g.numNodes) :
    update_all g u_mul_e_udf mean_udf nf ef = update_all g u_mul_e meanRows nf ef := by
  unfold update_all
  apply List.filterMap_congr
  intro v _
  unfold reduceAt
  have hmsg : messagesTo g u_mul_e_udf nf ef v = messagesTo g u_mul_e nf ef v := rfl
  rw [hmsg]
  by_cases hemp : (messagesTo g u_mul_e nf ef v).isEmpty
  · rw [if_pos hemp, if_pos hemp]
  · rw [if_neg hemp, if_neg hemp]
    have hnil : messagesTo g u_mul_e nf ef v ≠ [] := by
      simpa [List.isEmpty_iff] using hemp
    congr 2
    apply mean_udf_eq_meanRows _ hnil F
    intro m hm
    unfold messagesTo at hm
    obtain ⟨p, hp, hpe⟩ := List.mem_map.mp hm
    subst hpe
    unfold inEdges at hp
    rw [List.mem_filter] at hp
    obtain ⟨hpm, _⟩ := hp
    have hget := List.mem_enum_iff_getElem?.mp hpm
    have hidx : p.1 < g.edges.length := by
      rcases h : g.edges[p.1]? with _ | q
      · rw [h] at hget
        cases hget
      · exact (List.getElem?_eq_some_iff.mp h).1
    have hmem : p.2 ∈ g.edges := by
      rw [List.getElem?_eq_getElem hidx] at hget
      injection hget with heq
      rw [← heq]
      exact List.getElem_mem hidx
    have hu : p.2.1 < nf.length := by
      rw [hnf]
      exact hsrc p.2 hmem
    have hsrcrow : (nf.getD p.2.1 []).length = F := by
      rw [List.getD_eq_getElem nf [] hu]
      exact hF _ (List.getElem_mem hu)
    have hedgerow : (ef.getD p.1 []).length = W := by
      have hi : p.1 < ef.length := by
        rw [hef]
        exact hidx
      rw [List.getD_eq_getElem ef [] hi]
      exact hW _ (List.getElem_mem hi)
    show (bmul (nf.getD p.2.1 []) (ef.getD p.1 [])).length = F
    apply bmul_length _ _ F hsrcrow
    rcases hBW with hBW | hBW
    · exact Or.inl (hedgerow.trans hBW)
    · exact Or.inr (by rw [hedgerow, hsrcrow, hBW])

/-- Witness for C10 on the single-edge graph with node rows of width 2 and
a one-column edge weight: the two computations agree. -/
theorem udf_matches_builtin_witness :
    update_all ⟨2, [(0, 1)]⟩ u_mul_e_udf mean_udf [[1, 2], [3, 4]] [[5]]
      = update_all ⟨2, [(0, 1)]⟩ u_mul_e meanRows [[1, 2], [3, 4]] [[5]] :=
  udf_matches_builtin ⟨2, [(0, 1)]⟩ [[1, 2], [3, 4]] [[5]] 2 1
    (by decide) (by decide) (by decide) (by decide) (Or.inl rfl) (by decide)

end DglBlitz
